import Mathlib

/-!
# Verification of the Frame-of-Reference fast-field codec

A shallow embedding of `fastfield_codecs/src/frame_of_reference.rs`: a
block-wise Frame-of-Reference bit-packing codec.  Values are grouped into
blocks of 128; each block stores its minimum and the minimal bit width for
`value - block_min`, with each block's packed bits padded to a byte boundary.
A self-describing footer (global stats plus per-block metadata, followed by a
4-byte footer length) trails the data region.

Machine integers (`u64`, `u32`, `u8`) are embedded as `Nat` with explicit
`% 2^w` truncation where the code truncates.  The bit-packer / bit-unpacker
and the binary (de)serialization primitives live in sibling crates of the
repository and are modelled from the spec, as marked on their definitions.
-/


namespace FOR

/-- Interpret a list of bits (LSB first) as a natural number. -/
def bitsToNat (l : List Bool) : Nat :=
  l.foldr (fun b acc => (if b then 1 else 0) + 2 * acc) 0

/-- The low `w` bits of `v`, LSB first. -/
def natBits (v w : Nat) : List Bool :=
  (List.range w).map (fun i => v.testBit i)

/-- Pad a bit stream with zero bits up to the next byte boundary.
Models the bit packer's `flush`, which pads the partial byte with zero bits. -/
def pad8 (l : List Bool) : List Bool :=
  l ++ List.replicate ((8 - l.length % 8) % 8) false

/-- Group a bit stream into bytes, 8 bits per byte, LSB first within a byte. -/
def bitsToBytes (bs : List Bool) : List Nat :=
  (List.range ((bs.length + 7) / 8)).map (fun k => bitsToNat ((bs.drop (8 * k)).take 8))

/-- Bit `i` of a byte stream: bit `i % 8` of byte `i / 8`. -/
def byteBit (bytes : List Nat) (i : Nat) : Bool :=
  Nat.testBit (bytes.getD (i / 8) 0) (i % 8)

/-- Interpret a little-endian byte list as a natural number; each entry is
truncated to its low 8 bits, as a byte holds. -/
def bytesToNat (l : List Nat) : Nat :=
  l.foldr (fun b acc => b % 256 + 256 * acc) 0

/-- Modelled from the spec: fixed-width little-endian serialization of a
`k`-byte unsigned integer, as provided by the external `common` crate. -/
def leBytes (k v : Nat) : List Nat :=
  (List.range k).map (fun i => v / 256 ^ i % 256)

/-- Halving loop computing the bit length of `n` in at most `fuel` steps. -/
def bitLength : Nat → Nat → Nat
  | 0, _ => 0
  | fuel + 1, n => if n = 0 then 0 else bitLength fuel (n / 2) + 1

/-- Modelled from the spec: `compute_num_bits` from the external bitpacker
crate returns the minimal bit width able to represent its `u64` argument
(`64 - leading_zeros`); 64 halving iterations are exact on the `u64` domain. -/
def compute_num_bits (n : Nat) : Nat := bitLength 64 n

/-- `BLOCK_SIZE`: 128 values per block. -/
def BLOCK_SIZE : Nat := 128

/-- `FastFieldStats`: precomputed global stats handed to the serializer
(all fields are `u64` in the source). -/
structure FastFieldStats where
  num_vals : Nat
  min_value : Nat
  max_value : Nat
deriving DecidableEq

/-- `BlockMetadata`: per-block reference value (`u64`) and bit width (`u8`). -/
structure BlockMetadata where
  min : Nat
  num_bits : Nat
deriving DecidableEq

/-- `BlockReader`: block metadata plus the byte offset of the block's packed
data.  The source also caches a `BitUnpacker`, which is determined by
`metadata.num_bits` and hence not a separate field here. -/
structure BlockReader where
  metadata : BlockMetadata
  start_offset : Nat
deriving DecidableEq

/-- Modelled from the spec: `BitUnpacker::get` reads the `w`-bit-wide integer
located at bit offset `bitOff` of the byte buffer, LSB first. -/
def unpackBits (bytes : List Nat) (bitOff w : Nat) : Nat :=
  bitsToNat ((List.range w).map (fun i => byteBit bytes (bitOff + i)))

/-- `BlockReader::get_u64`: unpack the value at `block_pos` from the buffer
suffix starting at `start_offset` and add back the block minimum. -/
def BlockReader.get_u64 (br : BlockReader) (block_pos : Nat) (data : List Nat) : Nat :=
  br.metadata.min +
    unpackBits (data.drop br.start_offset) (block_pos * br.metadata.num_bits) br.metadata.num_bits

/-- The block partition walked by `serialize`'s loop
(`for data_pos in (0..data.len()).step_by(BLOCK_SIZE)`). -/
def blocksOf (data : List Nat) : List (List Nat) :=
  (List.range ((data.length + (BLOCK_SIZE - 1)) / BLOCK_SIZE)).map
    (fun k => (data.drop (BLOCK_SIZE * k)).take BLOCK_SIZE)

/-- The block's running minimum (`min = block_values[0]` then `min.min(v)`). -/
def blockMin (b : List Nat) : Nat := b.tail.foldl Nat.min (b.headD 0)

/-- The block's running maximum. -/
def blockMax (b : List Nat) : Nat := b.tail.foldl Nat.max (b.headD 0)

/-- `num_bits = compute_num_bits(max - min)` for a block. -/
def blockNumBits (b : List Nat) : Nat := compute_num_bits (blockMax b - blockMin b)

/-- The bits emitted for one block: each value's offset from the block
minimum, `num_bits` wide, then `bit_packer.flush` pads to a byte boundary. -/
def blockBits (b : List Nat) : List Bool :=
  pad8 ((b.map (fun v => natBits (v - blockMin b) (blockNumBits b))).flatten)

/-- The whole data region, as bits. -/
def dataBits (data : List Nat) : List Bool := ((blocksOf data).map blockBits).flatten

/-- The data region as bytes. -/
def dataBytes (data : List Nat) : List Nat := bitsToBytes (dataBits data)

/-- The block-metadata list accumulated by the encoder loop. -/
def blockMetadatas (data : List Nat) : List BlockMetadata :=
  (blocksOf data).map (fun b => ⟨blockMin b, blockNumBits b⟩)

/-- `FORFooter`: global stats plus per-block metadata. -/
structure FORFooter where
  num_vals : Nat
  min_value : Nat
  max_value : Nat
  block_metadatas : List BlockMetadata
deriving DecidableEq

/-- Modelled from the spec: `BlockMetadata` serializes as `min: u64` then
`num_bits: u8`. -/
def BlockMetadata.serializeBytes (m : BlockMetadata) : List Nat :=
  leBytes 8 m.min ++ leBytes 1 m.num_bits

/-- Modelled from the spec: the metadata sequence serializes as a `u32`
count followed by the entries (`block_count:u32 | (min:u64, num_bits:u8)*`). -/
def metasSerializeBytes (ms : List BlockMetadata) : List Nat :=
  leBytes 4 ms.length ++ (ms.map BlockMetadata.serializeBytes).flatten

/-- The footer body `FORFooter::serialize` collects into its temporary
buffer `out`: `num_vals | min_value | max_value | block_metadatas`. -/
def footerBody (f : FORFooter) : List Nat :=
  leBytes 8 f.num_vals ++ leBytes 8 f.min_value ++ leBytes 8 f.max_value ++
    metasSerializeBytes f.block_metadatas

/-- `FORFooter::serialize`: the body followed by `out.len() as u32`. -/
def FORFooter.serializeBytes (f : FORFooter) : List Nat :=
  footerBody f ++ leBytes 4 (footerBody f).length

/-- `FORFastFieldSerializer::serialize`: bit-pack every 128-value block
(offsets from the block minimum, each block flushed to a byte boundary),
then append the footer built verbatim from the caller-supplied stats. -/
def serialize (stats : FastFieldStats) (data : List Nat) : List Nat :=
  dataBytes data ++
    FORFooter.serializeBytes
      ⟨stats.num_vals, stats.min_value, stats.max_value, blockMetadatas data⟩

/-- Modelled from the spec: read a fixed-width `k`-byte little-endian
integer, failing (io error) when fewer than `k` bytes remain. -/
def readLE (k : Nat) (bs : List Nat) : Option (Nat × List Nat) :=
  if k ≤ bs.length then some (bytesToNat (bs.take k), bs.drop k) else none

/-- `BlockMetadata::deserialize`: `min: u64` then `num_bits: u8`.
(`?` propagates the first failure, as in the source.) -/
def readMeta (bs : List Nat) : Option (BlockMetadata × List Nat) :=
  match readLE 8 bs with
  | none => none
  | some (mn, bs1) =>
    match readLE 1 bs1 with
    | none => none
    | some (nb, bs2) => some (⟨mn, nb⟩, bs2)

/-- Modelled from the spec: deserialize `n` length-prefixed sequence
elements in order. -/
def readMetas : Nat → List Nat → Option (List BlockMetadata × List Nat)
  | 0, bs => some ([], bs)
  | n + 1, bs =>
    match readMeta bs with
    | none => none
    | some (m, bs1) =>
      match readMetas n bs1 with
      | none => none
      | some (ms, bs2) => some (m :: ms, bs2)

/-- `FORFooter::deserialize`: the four fields in order; trailing bytes are
left unconsumed. -/
def footerDeserialize (bs : List Nat) : Option FORFooter :=
  match readLE 8 bs with
  | none => none
  | some (nv, bs1) =>
    match readLE 8 bs1 with
    | none => none
    | some (mn, bs2) =>
      match readLE 8 bs2 with
      | none => none
      | some (mx, bs3) =>
        match readLE 4 bs3 with
        | none => none
        | some (count, bs4) =>
          match readMetas count bs4 with
          | none => none
          | some (ms, _) => some ⟨nv, mn, mx, ms⟩

/-- `FORFastFieldReader`: global stats plus the ordered `BlockReader`s. -/
structure FORFastFieldReader where
  num_vals : Nat
  min_value : Nat
  max_value : Nat
  block_readers : List BlockReader
deriving DecidableEq

/-- The `open_from_bytes` loop: each `BlockReader` receives the running
`current_data_offset`, advanced by `num_bits * BLOCK_SIZE / 8` per block. -/
def buildBlockReaders : List BlockMetadata → Nat → List BlockReader
  | [], _ => []
  | m :: ms, off => ⟨m, off⟩ :: buildBlockReaders ms (off + m.num_bits * BLOCK_SIZE / 8)

/-- Outcome of `open_from_bytes`: the source can panic (unchecked slice /
subtraction arithmetic), return an `io::Error`, or succeed. -/
inductive OpenResult where
  | panicked : OpenResult
  | err : OpenResult
  | ok : FORFastFieldReader → OpenResult
deriving DecidableEq

/-- `FORFastFieldReader::open_from_bytes`: read the trailing 4 bytes as the
footer length `L`, split at `len - (4 + L)`, deserialize the footer from the
right part, and build the block readers.  The subtractions `bytes.len() - 4`
and `bytes.len() - (4 + footer_len)` are unchecked in the source: when they
underflow the code panics (checked/debug semantics; in release the wrapped
index makes the slice operation panic for `L < 2^32 - 4`). -/
def open_from_bytes (bytes : List Nat) : OpenResult :=
  if bytes.length < 4 then .panicked
  else if bytes.length < 4 + bytesToNat (bytes.drop (bytes.length - 4)) then .panicked
  else
    match footerDeserialize
        (bytes.drop (bytes.length - (4 + bytesToNat (bytes.drop (bytes.length - 4))))) with
    | none => .err
    | some footer => .ok ⟨footer.num_vals, footer.min_value, footer.max_value,
        buildBlockReaders footer.block_metadatas 0⟩

/-- `FORFastFieldReader::get_u64`: `block_idx = idx / BLOCK_SIZE`,
`block_pos = idx - block_idx * BLOCK_SIZE`; `none` models the panic of the
out-of-bounds `Vec` index `block_readers[block_idx]`. -/
def FORFastFieldReader.get_u64 (r : FORFastFieldReader) (idx : Nat) (data : List Nat) :
    Option Nat :=
  match r.block_readers[idx / BLOCK_SIZE]? with
  | some br => some (br.get_u64 (idx - (idx / BLOCK_SIZE) * BLOCK_SIZE) data)
  | none => none

/-- Open a buffer and read index `idx`: the composition exercised by the
round-trip property. -/
def decodeAt (bytes : List Nat) (idx : Nat) : Option Nat :=
  match open_from_bytes bytes with
  | .ok r => r.get_u64 idx bytes
  | _ => none

/-- `FORFastFieldSerializer::is_applicable`: `stats.num_vals > BLOCK_SIZE`.
The accessor argument is ignored by the source. -/
def is_applicable (_fastfield_accessor : Nat → Nat) (stats : FastFieldStats) : Bool :=
  decide (BLOCK_SIZE < stats.num_vals)

/-- `FORFastFieldSerializer::estimate_compression_ratio`, numerator part:
the estimated total bit count `num_bits` before the final `f32` division by
`64 * num_vals`.  `none` models the `.max().unwrap()` panic on an empty
sample.  The `f32` step `max_distance as f32 * 3.0` followed by `as u64` is
modelled as `3 * max_distance`, exact whenever `3 * max_distance < 2^24`
(f32 carries a 24-bit significand); the `u64` subtraction
`actual_value - stats.min_value` is modelled as `Nat` subtraction, exact
whenever the stats invariant `min_value ≤ value` holds. -/
def estimate_num_bits (fastfield_accessor : Nat → Nat) (stats : FastFieldStats) :
    Option Nat :=
  (((List.range (min BLOCK_SIZE stats.num_vals)).map
      (fun pos => fastfield_accessor pos - stats.min_value)).max?).map
    (fun max_distance =>
      compute_num_bits (3 * max_distance) * stats.num_vals +
        9 * (stats.num_vals / BLOCK_SIZE))

/-- The compression-ratio estimate as an exact rational:
`estimate_num_bits / (64 * num_vals)` (the source computes this division in
`f32`). -/
def estimate_compression_ratio (fastfield_accessor : Nat → Nat) (stats : FastFieldStats) :
    Option ℚ :=
  Option.map (fun nb => (Nat.cast nb : ℚ) / (Nat.cast (64 * stats.num_vals) : ℚ))
    (estimate_num_bits fastfield_accessor stats)

/-- Byte length of the first `i` chunks of a chunk list. -/
def prefixLen {α : Type} (L : List (List α)) (i : Nat) : Nat :=
  ((L.take i).map List.length).sum

/-- Byte offset of block `i` as the decoder computes it: the running sum of
`num_bits * BLOCK_SIZE / 8` over the preceding blocks. -/
def offsetOf (ms : List BlockMetadata) (i : Nat) : Nat :=
  ((ms.take i).map (fun m => m.num_bits * BLOCK_SIZE / 8)).sum

/-- The estimate formula as claim C2 words it: `minimal_bits(3 × max_distance)`
bits per value plus 9 bytes per block expressed in bits (72), with
`ceil(num_vals / 128)` blocks.  Stated for comparison with
`estimate_num_bits`, which embeds the source. -/
def claimed_estimate_num_bits (max_distance num_vals : Nat) : Nat :=
  compute_num_bits (3 * max_distance) * num_vals +
    72 * ((num_vals + (BLOCK_SIZE - 1)) / BLOCK_SIZE)

/-! ## Theorems -/

theorem natBits_length (v w : Nat) : (natBits v w).length = w := by
  simp [natBits]

theorem natBits_succ (v w : Nat) :
    natBits v (w + 1) = v.testBit 0 :: natBits (v / 2) w := by
  simp only [natBits, List.range_succ_eq_map, List.map_cons, List.map_map]
  congr 1
  apply List.map_congr_left
  intro i _
  simp [Nat.testBit_succ]

theorem bitsToNat_cons (b : Bool) (l : List Bool) :
    bitsToNat (b :: l) = (if b then 1 else 0) + 2 * bitsToNat l := rfl

theorem bitsToNat_natBits (v w : Nat) : bitsToNat (natBits v w) = v % 2 ^ w := by
  induction w generalizing v with
  | zero => simp [natBits, bitsToNat, Nat.mod_one]
  | succ k ih =>
    rw [natBits_succ, bitsToNat_cons, ih]
    have h2 : v % 2 ^ (k + 1) = v % 2 + 2 * (v / 2 % 2 ^ k) := by
      rw [Nat.pow_succ, Nat.mul_comm (2 ^ k) 2, Nat.mod_mul]
    rw [h2, Nat.testBit_zero]
    have : v % 2 = 0 ∨ v % 2 = 1 := Nat.mod_two_eq_zero_or_one v
    rcases this with h | h <;> simp [h]

theorem testBit_bitsToNat (l : List Bool) (i : Nat) :
    (bitsToNat l).testBit i = l.getD i false := by
  induction l generalizing i with
  | nil => simp [bitsToNat]
  | cons b rest ih =>
    rw [bitsToNat_cons]
    cases i with
    | zero =>
      rcases b with _ | _ <;>
        simp [Nat.testBit_zero, Nat.add_mul_mod_self_left, List.getD]
    | succ j =>
      rw [Nat.testBit_succ]
      have hdiv : ((if b then 1 else 0) + 2 * bitsToNat rest) / 2 = bitsToNat rest := by
        cases b
        · show (0 + 2 * bitsToNat rest) / 2 = bitsToNat rest
          omega
        · show (1 + 2 * bitsToNat rest) / 2 = bitsToNat rest
          omega
      rw [hdiv]
      simpa [List.getD] using ih j

theorem bitsToNat_lt (l : List Bool) : bitsToNat l < 2 ^ l.length := by
  induction l with
  | nil => simp [bitsToNat]
  | cons b rest ih =>
    rw [bitsToNat_cons]
    simp only [List.length_cons, Nat.pow_succ]
    rcases b with _ | _ <;> simp <;> omega

theorem getD_append_left {α : Type} (l l' : List α) (i : Nat) (d : α)
    (h : i < l.length) : (l ++ l').getD i d = l.getD i d := by
  simp [List.getD_eq_getElem?_getD, List.getElem?_append, h]

theorem getD_drop {α : Type} (l : List α) (n i : Nat) (d : α) :
    (l.drop n).getD i d = l.getD (n + i) d := by
  simp [List.getD_eq_getElem?_getD, List.getElem?_drop]

theorem getD_take {α : Type} (l : List α) (n i : Nat) (d : α) (h : i < n) :
    (l.take n).getD i d = l.getD i d := by
  simp [List.getD_eq_getElem?_getD, List.getElem?_take, h]

theorem getD_map_range {α : Type} (f : Nat → α) (n k : Nat) (d : α) (h : k < n) :
    (((List.range n).map f).getD k d) = f k := by
  simp [List.getD_eq_getElem?_getD, List.getElem?_map, List.getElem?_range, h]

theorem pad8_length_mod (l : List Bool) : (pad8 l).length % 8 = 0 := by
  simp only [pad8, List.length_append, List.length_replicate]
  omega

theorem le_pad8_length (l : List Bool) : l.length ≤ (pad8 l).length := by
  simp [pad8]

theorem pad8_length_lt (l : List Bool) : (pad8 l).length < l.length + 8 := by
  simp only [pad8, List.length_append, List.length_replicate]
  omega

theorem pad8_getD (l : List Bool) (i : Nat) (h : i < l.length) :
    (pad8 l).getD i false = l.getD i false := getD_append_left _ _ _ _ h

theorem pad8_full (l : List Bool) (h : l.length % 8 = 0) : pad8 l = l := by
  simp [pad8, h]

theorem bitsToBytes_length (bs : List Bool) :
    (bitsToBytes bs).length = (bs.length + 7) / 8 := by
  simp [bitsToBytes]

theorem byteBit_bitsToBytes (bs : List Bool) (i : Nat) (h : i < bs.length) :
    byteBit (bitsToBytes bs) i = bs.getD i false := by
  unfold byteBit bitsToBytes
  have hk : i / 8 < (bs.length + 7) / 8 := by omega
  rw [getD_map_range _ _ _ _ hk, testBit_bitsToNat,
    getD_take _ _ _ _ (Nat.mod_lt i (by omega)), getD_drop]
  congr 1
  omega

theorem byteBit_append_left (a b : List Nat) (i : Nat) (h : i < 8 * a.length) :
    byteBit (a ++ b) i = byteBit a i := by
  unfold byteBit
  rw [getD_append_left _ _ _ _ (by omega)]

theorem leBytes_length (k v : Nat) : (leBytes k v).length = k := by
  simp [leBytes]

theorem leBytes_succ (k v : Nat) :
    leBytes (k + 1) v = v % 256 :: leBytes k (v / 256) := by
  simp only [leBytes, List.range_succ_eq_map, List.map_cons, List.map_map]
  congr 1
  · simp
  · apply List.map_congr_left
    intro i _
    simp only [Function.comp_apply, Nat.pow_succ]
    rw [Nat.mul_comm (256 ^ i) 256, ← Nat.div_div_eq_div_mul]

theorem bytesToNat_leBytes (k v : Nat) : bytesToNat (leBytes k v) = v % 256 ^ k := by
  induction k generalizing v with
  | zero => simp [leBytes, bytesToNat, Nat.mod_one]
  | succ n ih =>
    rw [leBytes_succ]
    show (v % 256) % 256 + 256 * bytesToNat (leBytes n (v / 256)) = v % 256 ^ (n + 1)
    have h1 : v % 256 % 256 = v % 256 := by omega
    rw [ih, h1, Nat.pow_succ, Nat.mul_comm (256 ^ n) 256, Nat.mod_mul]

theorem lt_two_pow_bitLength (fuel n : Nat) (h : n < 2 ^ fuel) :
    n < 2 ^ bitLength fuel n := by
  induction fuel generalizing n with
  | zero => simpa [bitLength] using h
  | succ f ih =>
    unfold bitLength
    by_cases h0 : n = 0
    · simp [h0]
    · simp only [h0, if_false]
      have hdiv : n / 2 < 2 ^ f := by
        rw [Nat.pow_succ] at h
        omega
      have := ih (n / 2) hdiv
      rw [Nat.pow_succ]
      omega

theorem bitLength_le (fuel n m : Nat) (h : n < 2 ^ m) : bitLength fuel n ≤ m := by
  induction fuel generalizing n m with
  | zero => simp [bitLength]
  | succ f ih =>
    unfold bitLength
    by_cases h0 : n = 0
    · simp [h0]
    · simp only [h0, if_false]
      cases m with
      | zero => simp at h; omega
      | succ m' =>
        have hdiv : n / 2 < 2 ^ m' := by
          rw [Nat.pow_succ] at h
          omega
        have := ih (n / 2) m' hdiv
        omega

theorem compute_num_bits_le (n m : Nat) (h : n < 2 ^ m) : compute_num_bits n ≤ m :=
  bitLength_le 64 n m h

theorem lt_two_pow_compute_num_bits (n : Nat) (h : n < 2 ^ 64) :
    n < 2 ^ compute_num_bits n := lt_two_pow_bitLength 64 n h

theorem compute_num_bits_le_64 (n : Nat) (h : n < 2 ^ 64) : compute_num_bits n ≤ 64 :=
  compute_num_bits_le n 64 h

/-! ### Positional lemmas for chunked streams -/

theorem byteBit_drop (l : List Nat) (s m : Nat) :
    byteBit (l.drop s) m = byteBit l (8 * s + m) := by
  unfold byteBit
  rw [getD_drop]
  have h1 : s + m / 8 = (8 * s + m) / 8 := by omega
  have h2 : m % 8 = (8 * s + m) % 8 := by omega
  rw [h1, h2]

theorem getD_append_right {α : Type} (l l' : List α) (i : Nat) (d : α) :
    (l ++ l').getD (l.length + i) d = l'.getD i d := by
  simp [List.getD_eq_getElem?_getD, List.getElem?_append_right]

theorem prefixLen_zero {α : Type} (L : List (List α)) : prefixLen L 0 = 0 := by
  simp [prefixLen]

theorem prefixLen_cons_succ {α : Type} (a : List α) (L : List (List α)) (i : Nat) :
    prefixLen (a :: L) (i + 1) = a.length + prefixLen L i := by
  simp [prefixLen]

theorem flatten_getD {α : Type} (L : List (List α)) (i m : Nat) (d : α)
    (hi : i < L.length) (hm : m < (L.getD i []).length) :
    L.flatten.getD (prefixLen L i + m) d = (L.getD i []).getD m d := by
  induction L generalizing i with
  | nil => simp at hi
  | cons a L ih =>
    cases i with
    | zero =>
      rw [prefixLen_zero]
      simp only [List.getD_cons_zero] at hm ⊢
      simpa using getD_append_left a L.flatten m d hm
    | succ j =>
      rw [prefixLen_cons_succ]
      simp only [List.getD_cons_succ] at hm ⊢
      rw [List.flatten_cons, Nat.add_assoc, getD_append_right]
      exact ih j (by simpa using hi) hm

theorem prefixLen_const {α : Type} (L : List (List α)) (w p : Nat)
    (hall : ∀ l ∈ L, l.length = w) (hp : p ≤ L.length) : prefixLen L p = p * w := by
  unfold prefixLen
  have : (L.take p).map List.length = List.replicate p w := by
    apply List.eq_replicate_iff.mpr
    constructor
    · simpa using hp
    · intro x hx
      obtain ⟨l, hl, rfl⟩ := List.mem_map.mp hx
      exact hall l (List.take_subset _ _ hl)
  rw [this, List.sum_replicate, smul_eq_mul]

theorem flatten_length_const {α : Type} (L : List (List α)) (w : Nat)
    (hall : ∀ l ∈ L, l.length = w) : L.flatten.length = L.length * w := by
  have := prefixLen_const L w L.length hall (Nat.le_refl _)
  simpa [prefixLen, List.take_length] using this

/-! ### Block partition lemmas -/

theorem blocksOf_length (data : List Nat) :
    (blocksOf data).length = (data.length + (BLOCK_SIZE - 1)) / BLOCK_SIZE := by
  simp [blocksOf]

theorem blocksOf_getD (data : List Nat) (k : Nat)
    (hk : k < (blocksOf data).length) :
    (blocksOf data).getD k [] = (data.drop (BLOCK_SIZE * k)).take BLOCK_SIZE := by
  rw [blocksOf_length] at hk
  exact getD_map_range _ _ _ _ hk

theorem blocksOf_getD_length (data : List Nat) (k : Nat)
    (hk : k < (blocksOf data).length) :
    ((blocksOf data).getD k []).length = min BLOCK_SIZE (data.length - BLOCK_SIZE * k) := by
  rw [blocksOf_getD data k hk]
  simp

theorem blocksOf_getD_ne_nil (data : List Nat) (k : Nat)
    (hk : k < (blocksOf data).length) :
    ((blocksOf data).getD k []).length ≠ 0 := by
  rw [blocksOf_getD_length data k hk]
  rw [blocksOf_length] at hk
  show BLOCK_SIZE ⊓ (data.length - BLOCK_SIZE * k) ≠ 0
  rw [Nat.min_def]
  unfold BLOCK_SIZE at hk ⊢
  split <;> omega

theorem blocksOf_mem_subset (data : List Nat) (k : Nat)
    (hk : k < (blocksOf data).length) :
    ∀ v ∈ (blocksOf data).getD k [], v ∈ data := by
  rw [blocksOf_getD data k hk]
  intro v hv
  exact List.drop_subset _ _ (List.take_subset _ _ hv)

/-! ### Running minimum / maximum of a block -/

theorem foldl_min_le_init (l : List Nat) (a : Nat) : l.foldl Nat.min a ≤ a := by
  induction l generalizing a with
  | nil => simp
  | cons x l ih =>
    calc (x :: l).foldl Nat.min a = l.foldl Nat.min (Nat.min a x) := rfl
    _ ≤ Nat.min a x := ih _
    _ ≤ a := Nat.min_le_left _ _

theorem foldl_min_le_mem (l : List Nat) (a v : Nat) (h : v ∈ l) :
    l.foldl Nat.min a ≤ v := by
  induction l generalizing a with
  | nil => simp at h
  | cons x l ih =>
    rcases List.mem_cons.mp h with rfl | h'
    · calc (v :: l).foldl Nat.min a = l.foldl Nat.min (Nat.min a v) := rfl
      _ ≤ Nat.min a v := foldl_min_le_init _ _
      _ ≤ v := Nat.min_le_right _ _
    · exact ih _ h'

theorem foldl_min_choice (l : List Nat) (a : Nat) :
    l.foldl Nat.min a = a ∨ l.foldl Nat.min a ∈ l := by
  induction l generalizing a with
  | nil => left; rfl
  | cons x l ih =>
    rcases ih (Nat.min a x) with h | h
    · rcases Nat.le_total a x with hax | hxa
      · left
        show l.foldl Nat.min (Nat.min a x) = a
        rw [h]
        show (if a ≤ x then a else x) = a
        split <;> omega
      · right
        show l.foldl Nat.min (Nat.min a x) ∈ x :: l
        rw [h]
        have hx : Nat.min a x = x := by
          show (if a ≤ x then a else x) = x
          split <;> omega
        rw [hx]
        exact List.mem_cons_self _ _
    · right
      exact List.mem_cons_of_mem _ h

theorem le_foldl_max_init (l : List Nat) (a : Nat) : a ≤ l.foldl Nat.max a := by
  induction l generalizing a with
  | nil => simp
  | cons x l ih =>
    calc a ≤ Nat.max a x := Nat.le_max_left _ _
    _ ≤ l.foldl Nat.max (Nat.max a x) := ih _
    _ = (x :: l).foldl Nat.max a := rfl

theorem le_foldl_max_mem (l : List Nat) (a v : Nat) (h : v ∈ l) :
    v ≤ l.foldl Nat.max a := by
  induction l generalizing a with
  | nil => simp at h
  | cons x l ih =>
    rcases List.mem_cons.mp h with rfl | h'
    · calc v ≤ Nat.max a v := Nat.le_max_right _ _
      _ ≤ l.foldl Nat.max (Nat.max a v) := le_foldl_max_init _ _
      _ = (v :: l).foldl Nat.max a := rfl
    · exact ih _ h'

theorem foldl_max_choice (l : List Nat) (a : Nat) :
    l.foldl Nat.max a = a ∨ l.foldl Nat.max a ∈ l := by
  induction l generalizing a with
  | nil => left; rfl
  | cons x l ih =>
    rcases ih (Nat.max a x) with h | h
    · rcases Nat.le_total a x with hax | hxa
      · right
        show l.foldl Nat.max (Nat.max a x) ∈ x :: l
        rw [h]
        have hx : Nat.max a x = x := by
          show (if a ≤ x then x else a) = x
          split <;> omega
        rw [hx]
        exact List.mem_cons_self _ _
      · left
        show l.foldl Nat.max (Nat.max a x) = a
        rw [h]
        show (if a ≤ x then x else a) = a
        split <;> omega
    · right
      exact List.mem_cons_of_mem _ h

theorem blockMin_le (b : List Nat) (v : Nat) (h : v ∈ b) : blockMin b ≤ v := by
  cases b with
  | nil => simp at h
  | cons x t =>
    show t.foldl Nat.min x ≤ v
    rcases List.mem_cons.mp h with rfl | h'
    · exact foldl_min_le_init _ _
    · exact foldl_min_le_mem _ _ _ h'

theorem le_blockMax (b : List Nat) (v : Nat) (h : v ∈ b) : v ≤ blockMax b := by
  cases b with
  | nil => simp at h
  | cons x t =>
    show v ≤ t.foldl Nat.max x
    rcases List.mem_cons.mp h with rfl | h'
    · exact le_foldl_max_init _ _
    · exact le_foldl_max_mem _ _ _ h'

theorem blockMin_mem (b : List Nat) (h : b ≠ []) : blockMin b ∈ b := by
  cases b with
  | nil => exact absurd rfl h
  | cons x t =>
    show t.foldl Nat.min x ∈ x :: t
    rcases foldl_min_choice t x with h' | h'
    · rw [h']; exact List.mem_cons_self _ _
    · exact List.mem_cons_of_mem _ h'

theorem blockMax_mem (b : List Nat) (h : b ≠ []) : blockMax b ∈ b := by
  cases b with
  | nil => exact absurd rfl h
  | cons x t =>
    show t.foldl Nat.max x ∈ x :: t
    rcases foldl_max_choice t x with h' | h'
    · rw [h']; exact List.mem_cons_self _ _
    · exact List.mem_cons_of_mem _ h'

/-- Every value of a block fits in the block's bit width: the key
frame-of-reference range invariant. -/
theorem sub_blockMin_lt (b : List Nat) (v : Nat) (hv : v ∈ b)
    (hbound : ∀ u ∈ b, u < 2 ^ 64) :
    v - blockMin b < 2 ^ blockNumBits b := by
  have hmax : blockMax b < 2 ^ 64 :=
    hbound _ (blockMax_mem b (List.ne_nil_of_mem hv))
  have hsub : v - blockMin b ≤ blockMax b - blockMin b :=
    Nat.sub_le_sub_right (le_blockMax b v hv) _
  have hlt : blockMax b - blockMin b < 2 ^ blockNumBits b :=
    lt_two_pow_compute_num_bits _ (by omega)
  omega

/-- The bit width of a block over `u64` values fits in a byte. -/
theorem blockNumBits_le_64 (b : List Nat) (hb : b ≠ [])
    (hbound : ∀ u ∈ b, u < 2 ^ 64) : blockNumBits b ≤ 64 := by
  have hmax : blockMax b < 2 ^ 64 := hbound _ (blockMax_mem b hb)
  exact compute_num_bits_le_64 _ (by omega)

/-! ### Packed block bits, positionally -/

theorem getD_map {α β : Type} (f : α → β) (l : List α) (p : Nat) (d : β) (d' : α)
    (h : p < l.length) : (l.map f).getD p d = f (l.getD p d') := by
  simp [List.getD_eq_getElem?_getD, List.getElem?_map, List.getElem?_eq_getElem h]

theorem natBits_getD (v w k : Nat) (h : k < w) :
    (natBits v w).getD k false = v.testBit k := getD_map_range _ _ _ _ h

theorem prefixLen_succ {α : Type} (L : List (List α)) (i : Nat) (h : i < L.length) :
    prefixLen L (i + 1) = prefixLen L i + (L.getD i []).length := by
  unfold prefixLen
  rw [List.take_succ, List.map_append, List.sum_append]
  congr 1
  simp [List.getElem?_eq_getElem h, List.getD_eq_getElem?_getD]

theorem offsetOf_zero (ms : List BlockMetadata) : offsetOf ms 0 = 0 := by
  simp [offsetOf]

theorem offsetOf_succ (ms : List BlockMetadata) (i : Nat) (h : i < ms.length) :
    offsetOf ms (i + 1) =
      offsetOf ms i + (ms.getD i ⟨0, 0⟩).num_bits * BLOCK_SIZE / 8 := by
  unfold offsetOf
  rw [List.take_succ, List.map_append, List.sum_append]
  congr 1
  simp [List.getElem?_eq_getElem h, List.getD_eq_getElem?_getD]

theorem prefixLen_add_le {α : Type} (L : List (List α)) (i : Nat) (h : i < L.length) :
    prefixLen L i + (L.getD i []).length ≤ L.flatten.length := by
  induction L generalizing i with
  | nil => simp at h
  | cons a L ih =>
    cases i with
    | zero =>
      rw [prefixLen_zero]
      simp only [List.getD_cons_zero, List.flatten_cons, List.length_append]
      omega
    | succ j =>
      rw [prefixLen_cons_succ]
      simp only [List.getD_cons_succ, List.flatten_cons, List.length_append]
      have := ih j (by simpa using h)
      omega

theorem blockBits_unpadded_length (b : List Nat) :
    ((b.map (fun v => natBits (v - blockMin b) (blockNumBits b))).flatten).length =
      b.length * blockNumBits b := by
  rw [flatten_length_const _ (blockNumBits b)]
  · simp
  · intro l hl
    obtain ⟨v, _, rfl⟩ := List.mem_map.mp hl
    exact natBits_length _ _

theorem blockBits_length_mod8 (b : List Nat) : (blockBits b).length % 8 = 0 :=
  pad8_length_mod _

theorem blockBits_length_full (b : List Nat) (h : b.length = BLOCK_SIZE) :
    (blockBits b).length = BLOCK_SIZE * blockNumBits b := by
  unfold blockBits
  rw [pad8_full, blockBits_unpadded_length, h]
  rw [blockBits_unpadded_length, h]
  show BLOCK_SIZE * blockNumBits b % 8 = 0
  unfold BLOCK_SIZE
  omega

theorem blockBits_getD (b : List Nat) (p k : Nat) (hp : p < b.length)
    (hk : k < blockNumBits b) :
    (blockBits b).getD (p * blockNumBits b + k) false =
      Nat.testBit (b.getD p 0 - blockMin b) k := by
  unfold blockBits
  set w := blockNumBits b with hw
  set L := b.map (fun v => natBits (v - blockMin b) w) with hL
  have hall : ∀ l ∈ L, l.length = w := by
    intro l hl
    obtain ⟨v, _, rfl⟩ := List.mem_map.mp hl
    exact natBits_length _ _
  have hLlen : L.length = b.length := by simp [hL]
  have hLp : L.getD p [] = natBits (b.getD p 0 - blockMin b) w :=
    getD_map _ _ _ _ 0 hp
  have hkw : k < w := hk
  have hidx : p * w + k < L.flatten.length := by
    rw [flatten_length_const L w hall, hLlen]
    have h1 : (p + 1) * w ≤ b.length * w := Nat.mul_le_mul_right w hp
    have h2 : (p + 1) * w = p * w + w := by ring
    omega
  rw [pad8_getD _ _ hidx]
  have hpre : prefixLen L p = p * w := prefixLen_const L w p hall (by omega)
  have := flatten_getD L p k false (by omega) (by rw [hLp, natBits_length]; exact hk)
  rw [hpre] at this
  rw [this, hLp, natBits_getD _ _ _ hk]

/-! ### The data region, positionally -/

theorem flatten_length_mod8 (L : List (List Bool)) (h : ∀ l ∈ L, l.length % 8 = 0) :
    L.flatten.length % 8 = 0 := by
  induction L with
  | nil => simp
  | cons a L ih =>
    rw [List.flatten_cons, List.length_append]
    have ha := h a (List.mem_cons_self _ _)
    have hL := ih (fun l hl => h l (List.mem_cons_of_mem _ hl))
    omega

theorem dataBits_length_mod8 (data : List Nat) : (dataBits data).length % 8 = 0 := by
  unfold dataBits
  apply flatten_length_mod8
  intro l hl
  obtain ⟨b, _, rfl⟩ := List.mem_map.mp hl
  exact blockBits_length_mod8 b

theorem dataBytes_length (data : List Nat) :
    8 * (dataBytes data).length = (dataBits data).length := by
  unfold dataBytes
  rw [bitsToBytes_length]
  have := dataBits_length_mod8 data
  omega

theorem blocksOf_full (data : List Nat) (j i : Nat)
    (hi : i < (blocksOf data).length) (hj : j < i) :
    ((blocksOf data).getD j []).length = BLOCK_SIZE := by
  have hjlen : j < (blocksOf data).length := Nat.lt_trans hj hi
  rw [blocksOf_getD_length data j hjlen]
  rw [blocksOf_length] at hi
  show BLOCK_SIZE ⊓ (data.length - BLOCK_SIZE * j) = BLOCK_SIZE
  rw [Nat.min_def]
  unfold BLOCK_SIZE at hi ⊢
  split <;> omega

theorem blockMetadatas_length (data : List Nat) :
    (blockMetadatas data).length = (blocksOf data).length := by
  simp [blockMetadatas]

theorem blockMetadatas_getD (data : List Nat) (k : Nat)
    (hk : k < (blocksOf data).length) :
    (blockMetadatas data).getD k ⟨0, 0⟩ =
      ⟨blockMin ((blocksOf data).getD k []), blockNumBits ((blocksOf data).getD k [])⟩ :=
  getD_map _ _ _ _ [] hk

theorem prefixLen_blockBits_eq (data : List Nat) (i : Nat)
    (hi : i ≤ (blocksOf data).length)
    (hfull : ∀ j, j < i → ((blocksOf data).getD j []).length = BLOCK_SIZE) :
    prefixLen ((blocksOf data).map blockBits) i = 8 * offsetOf (blockMetadatas data) i := by
  induction i with
  | zero => rw [prefixLen_zero, offsetOf_zero]
  | succ j ih =>
    have hj : j < (blocksOf data).length := by omega
    rw [prefixLen_succ _ _ (by simpa using hj),
      offsetOf_succ _ _ (by rw [blockMetadatas_length]; exact hj)]
    rw [ih (by omega) (fun j' hj' => hfull j' (by omega))]
    rw [getD_map blockBits _ _ _ [] hj]
    rw [blockMetadatas_getD data j hj]
    rw [blockBits_length_full _ (hfull j (by omega))]
    show 8 * offsetOf (blockMetadatas data) j +
        BLOCK_SIZE * blockNumBits ((blocksOf data).getD j []) =
      8 * (offsetOf (blockMetadatas data) j +
        blockNumBits ((blocksOf data).getD j []) * BLOCK_SIZE / 8)
    unfold BLOCK_SIZE
    omega

theorem blockBits_pos_lt (b : List Nat) (p k : Nat) (hp : p < b.length)
    (hk : k < blockNumBits b) :
    p * blockNumBits b + k < (blockBits b).length := by
  have h1 : (p + 1) * blockNumBits b ≤ b.length * blockNumBits b :=
    Nat.mul_le_mul_right _ hp
  have h2 : (p + 1) * blockNumBits b = p * blockNumBits b + blockNumBits b := by ring
  have h3 := le_pad8_length ((b.map (fun v => natBits (v - blockMin b) (blockNumBits b))).flatten)
  rw [blockBits_unpadded_length] at h3
  show p * blockNumBits b + k < (blockBits b).length
  unfold blockBits
  omega

theorem dataBits_getD_block (data : List Nat) (i p k : Nat)
    (hi : i < (blocksOf data).length)
    (hp : p < ((blocksOf data).getD i []).length)
    (hk : k < blockNumBits ((blocksOf data).getD i [])) :
    (dataBits data).getD
        (8 * offsetOf (blockMetadatas data) i +
          (p * blockNumBits ((blocksOf data).getD i []) + k)) false =
      Nat.testBit
        (((blocksOf data).getD i []).getD p 0 - blockMin ((blocksOf data).getD i [])) k := by
  unfold dataBits
  have hfull : ∀ j, j < i → ((blocksOf data).getD j []).length = BLOCK_SIZE :=
    fun j hj => blocksOf_full data j i hi hj
  have hpre := prefixLen_blockBits_eq data i (Nat.le_of_lt hi) hfull
  have hmap : ((blocksOf data).map blockBits).getD i [] =
      blockBits ((blocksOf data).getD i []) := getD_map _ _ _ _ [] hi
  have hin : p * blockNumBits ((blocksOf data).getD i []) + k <
      (((blocksOf data).map blockBits).getD i []).length := by
    rw [hmap]
    exact blockBits_pos_lt _ _ _ hp hk
  rw [← hpre]
  rw [flatten_getD _ i _ false (by simpa using hi) hin]
  rw [hmap]
  exact blockBits_getD _ p k hp hk

theorem dataBits_pos_lt (data : List Nat) (i p k : Nat)
    (hi : i < (blocksOf data).length)
    (hp : p < ((blocksOf data).getD i []).length)
    (hk : k < blockNumBits ((blocksOf data).getD i [])) :
    8 * offsetOf (blockMetadatas data) i +
        (p * blockNumBits ((blocksOf data).getD i []) + k) <
      (dataBits data).length := by
  unfold dataBits
  have hfull : ∀ j, j < i → ((blocksOf data).getD j []).length = BLOCK_SIZE :=
    fun j hj => blocksOf_full data j i hi hj
  have hpre := prefixLen_blockBits_eq data i (Nat.le_of_lt hi) hfull
  have hmap : ((blocksOf data).map blockBits).getD i [] =
      blockBits ((blocksOf data).getD i []) := getD_map _ _ _ _ [] hi
  have hin : p * blockNumBits ((blocksOf data).getD i []) + k <
      (((blocksOf data).map blockBits).getD i []).length := by
    rw [hmap]
    exact blockBits_pos_lt _ _ _ hp hk
  have := prefixLen_add_le ((blocksOf data).map blockBits) i (by simpa using hi)
  omega

/-! ### Footer serialization round-trip -/

theorem readLE_append (k v : Nat) (rest : List Nat) (hv : v < 256 ^ k) :
    readLE k (leBytes k v ++ rest) = some (v, rest) := by
  unfold readLE
  have hlen : (leBytes k v ++ rest).length = k + rest.length := by
    simp [leBytes_length]
  rw [if_pos (by omega)]
  rw [List.take_left' (leBytes_length k v), List.drop_left' (leBytes_length k v)]
  rw [bytesToNat_leBytes, Nat.mod_eq_of_lt hv]

theorem readMeta_append (m : BlockMetadata) (rest : List Nat)
    (h1 : m.min < 256 ^ 8) (h2 : m.num_bits < 256) :
    readMeta (BlockMetadata.serializeBytes m ++ rest) = some (m, rest) := by
  unfold readMeta BlockMetadata.serializeBytes
  rw [List.append_assoc]
  simp only [readLE_append 8 m.min _ h1,
    readLE_append 1 m.num_bits rest (by simpa using h2)]

theorem readMetas_append (ms : List BlockMetadata) (rest : List Nat)
    (hb : ∀ m ∈ ms, m.min < 256 ^ 8 ∧ m.num_bits < 256) :
    readMetas ms.length ((ms.map BlockMetadata.serializeBytes).flatten ++ rest) =
      some (ms, rest) := by
  induction ms with
  | nil => simp [readMetas]
  | cons m ms ih =>
    have hm := hb m (List.mem_cons_self _ _)
    show readMetas (ms.length + 1)
        ((BlockMetadata.serializeBytes m :: ms.map BlockMetadata.serializeBytes).flatten
          ++ rest) = _
    rw [List.flatten_cons, List.append_assoc]
    unfold readMetas
    simp only [readMeta_append m _ hm.1 hm.2,
      ih (fun m' hm' => hb m' (List.mem_cons_of_mem _ hm'))]

theorem footerDeserialize_body (f : FORFooter) (rest : List Nat)
    (h1 : f.num_vals < 256 ^ 8) (h2 : f.min_value < 256 ^ 8) (h3 : f.max_value < 256 ^ 8)
    (h4 : f.block_metadatas.length < 256 ^ 4)
    (hb : ∀ m ∈ f.block_metadatas, m.min < 256 ^ 8 ∧ m.num_bits < 256) :
    footerDeserialize (footerBody f ++ rest) = some f := by
  obtain ⟨nv, mn, mx, ms⟩ := f
  unfold footerDeserialize footerBody metasSerializeBytes
  simp only at h1 h2 h3 h4 hb ⊢
  rw [List.append_assoc, List.append_assoc, List.append_assoc, List.append_assoc]
  simp only [readLE_append 8 nv _ h1, readLE_append 8 mn _ h2,
    readLE_append 8 mx _ h3, readLE_append 4 ms.length _ h4,
    readMetas_append ms rest hb]

theorem serializeBytes_meta_length (m : BlockMetadata) :
    (BlockMetadata.serializeBytes m).length = 9 := by
  simp [BlockMetadata.serializeBytes, leBytes_length]

theorem metasSerializeBytes_length (ms : List BlockMetadata) :
    (metasSerializeBytes ms).length = 4 + 9 * ms.length := by
  unfold metasSerializeBytes
  rw [List.length_append, leBytes_length,
    flatten_length_const (ms.map BlockMetadata.serializeBytes) 9]
  · simp [Nat.mul_comm]
  · intro l hl
    obtain ⟨m, _, rfl⟩ := List.mem_map.mp hl
    exact serializeBytes_meta_length m

theorem footerBody_length (f : FORFooter) :
    (footerBody f).length = 28 + 9 * f.block_metadatas.length := by
  unfold footerBody
  rw [List.length_append, List.length_append, List.length_append,
    leBytes_length, leBytes_length, leBytes_length, metasSerializeBytes_length]
  omega

theorem blocksOf_mem_ne_nil (data : List Nat) (b : List Nat)
    (hb : b ∈ blocksOf data) : b ≠ [] := by
  unfold blocksOf at hb
  obtain ⟨k, hk, rfl⟩ := List.mem_map.mp hb
  rw [List.mem_range] at hk
  intro hnil
  have := congrArg List.length hnil
  simp only [List.length_take, List.length_drop, List.length_nil] at this
  rw [Nat.min_def] at this
  unfold BLOCK_SIZE at this hk
  split at this <;> omega

theorem blocksOf_mem_subset_data (data : List Nat) (b : List Nat)
    (hb : b ∈ blocksOf data) : ∀ v ∈ b, v ∈ data := by
  unfold blocksOf at hb
  obtain ⟨k, _, rfl⟩ := List.mem_map.mp hb
  intro v hv
  exact List.drop_subset _ _ (List.take_subset _ _ hv)

theorem blockMetadatas_bounds (data : List Nat) (hv : ∀ v ∈ data, v < 2 ^ 64) :
    ∀ m ∈ blockMetadatas data, m.min < 256 ^ 8 ∧ m.num_bits < 256 := by
  intro m hm
  unfold blockMetadatas at hm
  obtain ⟨b, hb, rfl⟩ := List.mem_map.mp hm
  have hne := blocksOf_mem_ne_nil data b hb
  have hsub := blocksOf_mem_subset_data data b hb
  have hbound : ∀ u ∈ b, u < 2 ^ 64 := fun u hu => hv u (hsub u hu)
  have h256 : (256 : Nat) ^ 8 = 2 ^ 64 := by norm_num
  constructor
  · show blockMin b < 256 ^ 8
    rw [h256]
    exact hbound _ (blockMin_mem b hne)
  · show blockNumBits b < 256
    have := blockNumBits_le_64 b hne hbound
    omega

theorem open_serialize (stats : FastFieldStats) (data : List Nat)
    (hnv : stats.num_vals < 2 ^ 64) (hmn : stats.min_value < 2 ^ 64)
    (hmx : stats.max_value < 2 ^ 64) (hv : ∀ v ∈ data, v < 2 ^ 64)
    (hlen : data.length < 2 ^ 32) :
    open_from_bytes (serialize stats data) =
      OpenResult.ok ⟨stats.num_vals, stats.min_value, stats.max_value,
        buildBlockReaders (blockMetadatas data) 0⟩ := by
  have hmetas_len : (blockMetadatas data).length =
      (data.length + (BLOCK_SIZE - 1)) / BLOCK_SIZE := by
    rw [blockMetadatas_length, blocksOf_length]
  have hBlen : (footerBody ⟨stats.num_vals, stats.min_value, stats.max_value,
      blockMetadatas data⟩).length = 28 + 9 * (blockMetadatas data).length :=
    footerBody_length _
  have hmlt2 : 28 + 9 * (blockMetadatas data).length < 4294967296 := by
    rw [hmetas_len]
    unfold BLOCK_SIZE
    omega
  have hmlt : (blockMetadatas data).length < 256 ^ 4 := by
    rw [show (256 : Nat) ^ 4 = 4294967296 from by norm_num]
    omega
  set B := footerBody ⟨stats.num_vals, stats.min_value, stats.max_value,
    blockMetadatas data⟩ with hB
  have hser : serialize stats data = (dataBytes data ++ B) ++ leBytes 4 B.length := by
    unfold serialize FORFooter.serializeBytes
    rw [List.append_assoc, hB]
  have hlen' : (serialize stats data).length =
      (dataBytes data).length + B.length + 4 := by
    rw [hser]
    simp only [List.length_append, leBytes_length]
  have hdrop4 : (serialize stats data).drop ((serialize stats data).length - 4) =
      leBytes 4 B.length := by
    rw [hser]
    have : ((dataBytes data ++ B) ++ leBytes 4 B.length).length - 4 =
        (dataBytes data ++ B).length := by
      simp only [List.length_append, leBytes_length]
      omega
    rw [this]
    exact List.drop_left _ _
  have hfl : bytesToNat ((serialize stats data).drop ((serialize stats data).length - 4)) =
      B.length := by
    rw [hdrop4, bytesToNat_leBytes]
    apply Nat.mod_eq_of_lt
    rw [hB, hBlen]
    rw [show (256 : Nat) ^ 4 = 4294967296 from by norm_num]
    omega
  have hdropD : (serialize stats data).drop
      ((serialize stats data).length - (4 + B.length)) = B ++ leBytes 4 B.length := by
    conv_lhs => rw [hser, List.append_assoc]
    have : ((dataBytes data ++ (B ++ leBytes 4 B.length)).length - (4 + B.length)) =
        (dataBytes data).length := by
      simp only [List.length_append, leBytes_length]
      omega
    rw [this]
    exact List.drop_left _ _
  have h256 : (256 : Nat) ^ 8 = 2 ^ 64 := by norm_num
  unfold open_from_bytes
  rw [if_neg (by omega), hfl, if_neg (by omega), hdropD,
    footerDeserialize_body _ _ (by simpa [h256] using hnv) (by simpa [h256] using hmn)
      (by simpa [h256] using hmx) hmlt (blockMetadatas_bounds data hv)]

/-! ### Decoder block readers -/

theorem offsetOf_cons_succ (m : BlockMetadata) (ms : List BlockMetadata) (j : Nat) :
    offsetOf (m :: ms) (j + 1) = m.num_bits * BLOCK_SIZE / 8 + offsetOf ms j := by
  simp [offsetOf]

theorem buildBlockReaders_length (ms : List BlockMetadata) (off : Nat) :
    (buildBlockReaders ms off).length = ms.length := by
  induction ms generalizing off with
  | nil => rfl
  | cons m ms ih =>
    show (buildBlockReaders ms _).length + 1 = ms.length + 1
    rw [ih]

theorem buildBlockReaders_getElem (ms : List BlockMetadata) (off i : Nat)
    (h : i < ms.length) :
    (buildBlockReaders ms off)[i]? =
      some ⟨ms.getD i ⟨0, 0⟩, off + offsetOf ms i⟩ := by
  induction ms generalizing off i with
  | nil => simp at h
  | cons m ms ih =>
    rw [show buildBlockReaders (m :: ms) off =
      ⟨m, off⟩ :: buildBlockReaders ms (off + m.num_bits * BLOCK_SIZE / 8) from rfl]
    cases i with
    | zero =>
      rw [List.getElem?_cons_zero, offsetOf_zero]
      simp
    | succ j =>
      rw [List.getElem?_cons_succ]
      rw [ih _ j (by simpa using h)]
      simp only [List.getD_cons_succ, offsetOf_cons_succ, Option.some.injEq,
        BlockReader.mk.injEq]
      exact ⟨trivial, by omega⟩

theorem getD_mem {α : Type} (l : List α) (i : Nat) (d : α) (h : i < l.length) :
    l.getD i d ∈ l := by
  simp only [List.getD_eq_getElem?_getD, List.getElem?_eq_getElem h, Option.getD_some]
  exact List.getElem_mem _

theorem get_u64_eq_of_reader (r : FORFastFieldReader) (idx : Nat) (data : List Nat)
    (br : BlockReader) (h : r.block_readers[idx / BLOCK_SIZE]? = some br) :
    r.get_u64 idx data =
      some (br.get_u64 (idx - (idx / BLOCK_SIZE) * BLOCK_SIZE) data) := by
  unfold FORFastFieldReader.get_u64
  rw [h]

/-- The value any in-range index decodes to, on a buffer produced by
`serialize`: the central round-trip lemma. -/
theorem get_u64_on_serialized (stats : FastFieldStats) (data : List Nat) (idx : Nat)
    (hv : ∀ v ∈ data, v < 2 ^ 64) (hidx : idx < data.length) :
    FORFastFieldReader.get_u64
        ⟨stats.num_vals, stats.min_value, stats.max_value,
          buildBlockReaders (blockMetadatas data) 0⟩
        idx (serialize stats data) = some (data.getD idx 0) := by
  have hnum : (blocksOf data).length = (data.length + (BLOCK_SIZE - 1)) / BLOCK_SIZE :=
    blocksOf_length data
  have hbi : idx / BLOCK_SIZE < (blocksOf data).length := by
    rw [hnum]
    unfold BLOCK_SIZE
    omega
  have hbi' : idx / BLOCK_SIZE < (blockMetadatas data).length := by
    rw [blockMetadatas_length]
    exact hbi
  have hdm : idx / BLOCK_SIZE * BLOCK_SIZE ≤ idx ∧
      idx < (idx / BLOCK_SIZE + 1) * BLOCK_SIZE := by
    unfold BLOCK_SIZE
    omega
  have hblen : ((blocksOf data).getD (idx / BLOCK_SIZE) []).length =
      min BLOCK_SIZE (data.length - BLOCK_SIZE * (idx / BLOCK_SIZE)) :=
    blocksOf_getD_length data _ hbi
  have hp : idx - (idx / BLOCK_SIZE) * BLOCK_SIZE <
      ((blocksOf data).getD (idx / BLOCK_SIZE) []).length := by
    rw [hblen, Nat.min_def]
    unfold BLOCK_SIZE at hdm ⊢
    split <;> omega
  have hvp : ((blocksOf data).getD (idx / BLOCK_SIZE) []).getD
      (idx - (idx / BLOCK_SIZE) * BLOCK_SIZE) 0 ∈
      (blocksOf data).getD (idx / BLOCK_SIZE) [] := getD_mem _ _ _ hp
  have hbmem : (blocksOf data).getD (idx / BLOCK_SIZE) [] ∈ blocksOf data := by
    rw [blocksOf_getD data _ hbi]
    unfold blocksOf
    apply List.mem_map_of_mem
    rw [List.mem_range, ← blocksOf_length]
    exact hbi
  have hvblock : ∀ u ∈ (blocksOf data).getD (idx / BLOCK_SIZE) [], u < 2 ^ 64 :=
    fun u hu => hv u (blocksOf_mem_subset_data data _ hbmem u hu)
  have hsub : ((blocksOf data).getD (idx / BLOCK_SIZE) []).getD
        (idx - (idx / BLOCK_SIZE) * BLOCK_SIZE) 0 -
        blockMin ((blocksOf data).getD (idx / BLOCK_SIZE) []) <
      2 ^ blockNumBits ((blocksOf data).getD (idx / BLOCK_SIZE) []) :=
    sub_blockMin_lt _ _ hvp hvblock
  have hread : (buildBlockReaders (blockMetadatas data) 0)[idx / BLOCK_SIZE]? =
      some ⟨⟨blockMin ((blocksOf data).getD (idx / BLOCK_SIZE) []),
          blockNumBits ((blocksOf data).getD (idx / BLOCK_SIZE) [])⟩,
        0 + offsetOf (blockMetadatas data) (idx / BLOCK_SIZE)⟩ := by
    rw [buildBlockReaders_getElem _ _ _ hbi', blockMetadatas_getD data _ hbi]
  rw [get_u64_eq_of_reader _ idx _ _ hread]
  unfold BlockReader.get_u64 unpackBits
  have hfun : ∀ k ∈ List.range (blockNumBits ((blocksOf data).getD (idx / BLOCK_SIZE) [])),
      byteBit ((serialize stats data).drop
          (0 + offsetOf (blockMetadatas data) (idx / BLOCK_SIZE)))
        ((idx - (idx / BLOCK_SIZE) * BLOCK_SIZE) *
            blockNumBits ((blocksOf data).getD (idx / BLOCK_SIZE) []) + k) =
      (((blocksOf data).getD (idx / BLOCK_SIZE) []).getD
          (idx - (idx / BLOCK_SIZE) * BLOCK_SIZE) 0 -
        blockMin ((blocksOf data).getD (idx / BLOCK_SIZE) [])).testBit k := by
    intro k hk
    rw [List.mem_range] at hk
    rw [byteBit_drop]
    have hposlt : 8 * offsetOf (blockMetadatas data) (idx / BLOCK_SIZE) +
        ((idx - (idx / BLOCK_SIZE) * BLOCK_SIZE) *
            blockNumBits ((blocksOf data).getD (idx / BLOCK_SIZE) []) + k) <
        (dataBits data).length :=
      dataBits_pos_lt data _ _ k hbi hp hk
    show byteBit (dataBytes data ++ FORFooter.serializeBytes
        ⟨stats.num_vals, stats.min_value, stats.max_value, blockMetadatas data⟩) _ = _
    rw [Nat.zero_add,
      byteBit_append_left _ _ _ (by rw [dataBytes_length]; omega)]
    show byteBit (bitsToBytes (dataBits data)) _ = _
    rw [byteBit_bitsToBytes _ _ (by omega)]
    exact dataBits_getD_block data _ _ k hbi hp hk
  rw [List.map_congr_left hfun]
  show some (blockMin ((blocksOf data).getD (idx / BLOCK_SIZE) []) +
      bitsToNat (natBits (((blocksOf data).getD (idx / BLOCK_SIZE) []).getD
          (idx - (idx / BLOCK_SIZE) * BLOCK_SIZE) 0 -
        blockMin ((blocksOf data).getD (idx / BLOCK_SIZE) []))
        (blockNumBits ((blocksOf data).getD (idx / BLOCK_SIZE) [])))) = _
  rw [bitsToNat_natBits, Nat.mod_eq_of_lt hsub]
  have hmin : blockMin ((blocksOf data).getD (idx / BLOCK_SIZE) []) ≤
      ((blocksOf data).getD (idx / BLOCK_SIZE) []).getD
        (idx - (idx / BLOCK_SIZE) * BLOCK_SIZE) 0 :=
    blockMin_le _ _ hvp
  have hval : blockMin ((blocksOf data).getD (idx / BLOCK_SIZE) []) +
      (((blocksOf data).getD (idx / BLOCK_SIZE) []).getD
          (idx - (idx / BLOCK_SIZE) * BLOCK_SIZE) 0 -
        blockMin ((blocksOf data).getD (idx / BLOCK_SIZE) [])) =
      ((blocksOf data).getD (idx / BLOCK_SIZE) []).getD
        (idx - (idx / BLOCK_SIZE) * BLOCK_SIZE) 0 := by
    omega
  rw [hval]
  congr 1
  rw [blocksOf_getD data _ hbi]
  rw [getD_take _ _ _ _ (by unfold BLOCK_SIZE at hdm ⊢; omega)]
  rw [getD_drop]
  congr 1
  unfold BLOCK_SIZE at hdm ⊢
  omega

/-! ## Claim theorems -/

/-- C8: `is_applicable` returns true exactly when `num_vals > 128` (`BLOCK_SIZE`),
independently of the data accessor and hence of the value distribution. -/
theorem is_applicable_C8 (acc acc' : Nat → Nat) (stats : FastFieldStats) :
    is_applicable acc stats = is_applicable acc' stats ∧
      (is_applicable acc stats = true ↔ BLOCK_SIZE < stats.num_vals) := by
  constructor
  · rfl
  · simp [is_applicable]

/-- C3 counterexample: on a buffer shorter than 4 bytes, `open_from_bytes`
panics (underflowing slice arithmetic) instead of returning an error result. -/
theorem open_short_panics_C3 :
    open_from_bytes [0] = OpenResult.panicked ∧
      OpenResult.panicked ≠ OpenResult.err := by
  decide

/-- C3 (amended): `open` panics when the buffer is shorter than 4 bytes and
when `4 + L` exceeds the buffer length; only a malformed footer region is
reported as an error value. -/
theorem open_error_cases_C3 (bytes : List Nat) :
    (bytes.length < 4 → open_from_bytes bytes = OpenResult.panicked) ∧
      (4 ≤ bytes.length →
        bytes.length < 4 + bytesToNat (bytes.drop (bytes.length - 4)) →
        open_from_bytes bytes = OpenResult.panicked) ∧
      (4 ≤ bytes.length →
        4 + bytesToNat (bytes.drop (bytes.length - 4)) ≤ bytes.length →
        footerDeserialize (bytes.drop
            (bytes.length - (4 + bytesToNat (bytes.drop (bytes.length - 4))))) = none →
        open_from_bytes bytes = OpenResult.err) := by
  refine ⟨?_, ?_, ?_⟩
  · intro h1
    unfold open_from_bytes
    rw [if_pos h1]
  · intro h1 h2
    unfold open_from_bytes
    rw [if_neg (by omega), if_pos h2]
  · intro h1 h2 h3
    unfold open_from_bytes
    rw [if_neg (by omega), if_neg (by omega), h3]

theorem open_error_cases_C3_witness :
    open_from_bytes [0] = OpenResult.panicked ∧
      open_from_bytes [5, 0, 0, 0] = OpenResult.panicked ∧
      open_from_bytes [0, 0, 0, 0] = OpenResult.err :=
  ⟨(open_error_cases_C3 [0]).1 (by decide),
    (open_error_cases_C3 [5, 0, 0, 0]).2.1 (by decide) (by decide),
    (open_error_cases_C3 [0, 0, 0, 0]).2.2 (by decide) (by decide) (by decide)⟩

set_option maxRecDepth 4000 in
/-- C4 counterexample: a buffer holding 129 values (`num_vals = 129`) answers
the out-of-range call `get(129)` with a silently decoded value (`some 7`) —
no assertion and no panic. -/
theorem get_out_of_range_silent_C4 :
    open_from_bytes (serialize ⟨129, 7, 7⟩ (List.replicate 129 7)) =
      OpenResult.ok ⟨129, 7, 7, [⟨⟨7, 0⟩, 0⟩, ⟨⟨7, 0⟩, 0⟩]⟩ ∧
      decodeAt (serialize ⟨129, 7, 7⟩ (List.replicate 129 7)) 129 = some 7 := by
  decide

/-- C4 (amended): `get` panics (out-of-bounds `Vec` index, modelled as `none`)
exactly when `idx / 128` reaches the number of block readers; any other
out-of-range index — in particular `num_vals ≤ idx` within the last block's
128-slot span — silently returns a decoded value. -/
theorem get_none_iff_C4 (r : FORFastFieldReader) (idx : Nat) (data : List Nat) :
    r.get_u64 idx data = none ↔ r.block_readers.length ≤ idx / BLOCK_SIZE := by
  unfold FORFastFieldReader.get_u64
  cases h : r.block_readers[idx / BLOCK_SIZE]? with
  | none => simp [List.getElem?_eq_none_iff.mp h]
  | some br =>
    have hlt : ¬ r.block_readers.length ≤ idx / BLOCK_SIZE := by
      intro hle
      rw [List.getElem?_eq_none hle] at h
      exact Option.noConfusion h
    simp [hlt]

set_option maxRecDepth 4000 in
/-- C2 counterexample: with accessor constantly 1, `min_value = 0` and
`num_vals = 129`, the code's estimated bit count is
`2·129 + 9·⌊129/128⌋ = 267`, while the claim's formula
(9 bytes per block in bits, ceil block count) gives `2·129 + 72·2 = 402`. -/
theorem estimate_formula_counterexample_C2 :
    estimate_num_bits (fun _ => 1) ⟨129, 0, 1⟩ = some 267 ∧
      claimed_estimate_num_bits 1 129 = 402 ∧ (267 : Nat) ≠ 402 := by
  decide

/-- C2 (amended): on a nonempty column the estimator samples the first
`min(128, num_vals)` values, takes the maximum distance `d` from the global
minimum, and returns
`(compute_num_bits(3·d) · num_vals + 9 · ⌊num_vals/128⌋) / (64 · num_vals)`:
the 9-byte-per-block metadata overhead is added as 9 — not converted to 72
bits — and blocks are counted as `⌊num_vals/128⌋`, not `⌈num_vals/128⌉`. -/
theorem estimate_eq_C2 (acc : Nat → Nat) (stats : FastFieldStats)
    (h : 0 < stats.num_vals) :
    ∃ d, ((List.range (min BLOCK_SIZE stats.num_vals)).map
          (fun pos => acc pos - stats.min_value)).max? = some d ∧
      estimate_num_bits acc stats =
        some (compute_num_bits (3 * d) * stats.num_vals +
          9 * (stats.num_vals / BLOCK_SIZE)) ∧
      estimate_compression_ratio acc stats =
        some (((compute_num_bits (3 * d) * stats.num_vals +
            9 * (stats.num_vals / BLOCK_SIZE) : Nat) : ℚ) /
          (Nat.cast (64 * stats.num_vals) : ℚ)) := by
  have hne : ((List.range (min BLOCK_SIZE stats.num_vals)).map
      (fun pos => acc pos - stats.min_value)) ≠ [] := by
    simp only [ne_eq, List.map_eq_nil_iff, List.range_eq_nil]
    unfold BLOCK_SIZE
    omega
  obtain ⟨d, hd⟩ : ∃ d, ((List.range (min BLOCK_SIZE stats.num_vals)).map
      (fun pos => acc pos - stats.min_value)).max? = some d := by
    cases hmax : ((List.range (min BLOCK_SIZE stats.num_vals)).map
        (fun pos => acc pos - stats.min_value)).max? with
    | none => exact absurd (List.max?_eq_none_iff.mp hmax) hne
    | some d => exact ⟨d, rfl⟩
  refine ⟨d, hd, ?_, ?_⟩
  · unfold estimate_num_bits
    rw [hd]
    rfl
  · unfold estimate_compression_ratio estimate_num_bits
    rw [hd]
    rfl

theorem estimate_eq_C2_witness :
    0 < (129 : Nat) ∧
      ∃ d, ((List.range (min BLOCK_SIZE 129)).map (fun pos => (fun _ => 1) pos - 0)).max?
          = some d ∧
        estimate_num_bits (fun _ => 1) ⟨129, 0, 1⟩ =
          some (compute_num_bits (3 * d) * 129 + 9 * (129 / BLOCK_SIZE)) ∧
        estimate_compression_ratio (fun _ => 1) ⟨129, 0, 1⟩ =
          some (((compute_num_bits (3 * d) * 129 + 9 * (129 / BLOCK_SIZE) : Nat) : ℚ) /
            (Nat.cast (64 * 129) : ℚ)) :=
  ⟨by decide, estimate_eq_C2 (fun _ => 1) ⟨129, 0, 1⟩ (by decide)⟩

/-- C1: serializing a `u64` sequence with matching stats, opening the
resulting buffer and calling `get` at every index in `[0, num_vals)` returns
exactly the original value at that index.  Proved for every sequence length
(so in particular for `num_vals > 128` and the boundary lengths `128·k` and
`128·k + 1`); the length bound keeps the footer's `u32` length prefix exact. -/
theorem roundtrip_C1 (stats : FastFieldStats) (data : List Nat)
    (hmatch : stats.num_vals = data.length)
    (hv : ∀ v ∈ data, v < 2 ^ 64)
    (hmn : stats.min_value < 2 ^ 64) (hmx : stats.max_value < 2 ^ 64)
    (hlen : data.length < 2 ^ 32) :
    ∀ idx, idx < data.length →
      decodeAt (serialize stats data) idx = some (data.getD idx 0) := by
  intro idx hidx
  unfold decodeAt
  rw [open_serialize stats data (by omega) hmn hmx hv hlen]
  exact get_u64_on_serialized stats data idx hv hidx

set_option maxRecDepth 8000 in
theorem roundtrip_C1_witness :
    ((129 : Nat) = (List.range 129).length ∧
      decodeAt (serialize ⟨129, 0, 128⟩ (List.range 129)) 77 =
        some ((List.range 129).getD 77 0)) ∧
    ((256 : Nat) = (List.range 256).length ∧
      decodeAt (serialize ⟨256, 0, 255⟩ (List.range 256)) 255 =
        some ((List.range 256).getD 255 0)) :=
  ⟨⟨by decide, roundtrip_C1 ⟨129, 0, 128⟩ (List.range 129) (by decide) (by decide)
      (by decide) (by decide) (by decide) 77 (by decide)⟩,
   ⟨by decide, roundtrip_C1 ⟨256, 0, 255⟩ (List.range 256) (by decide) (by decide)
      (by decide) (by decide) (by decide) 255 (by decide)⟩⟩

/-- C10: `serialize` copies `num_vals`, `min_value` and `max_value` verbatim
from the caller-supplied stats into the footer, with no validation against
the data: after `open`, the reader reports exactly those stats — also when
they disagree with the encoded sequence. -/
theorem stats_passthrough_C10 (stats : FastFieldStats) (data : List Nat)
    (hnv : stats.num_vals < 2 ^ 64) (hmn : stats.min_value < 2 ^ 64)
    (hmx : stats.max_value < 2 ^ 64) (hv : ∀ v ∈ data, v < 2 ^ 64)
    (hlen : data.length < 2 ^ 32) :
    ∃ r, open_from_bytes (serialize stats data) = OpenResult.ok r ∧
      r.num_vals = stats.num_vals ∧ r.min_value = stats.min_value ∧
      r.max_value = stats.max_value :=
  ⟨_, open_serialize stats data hnv hmn hmx hv hlen, rfl, rfl, rfl⟩

set_option maxRecDepth 8000 in
theorem stats_passthrough_C10_witness :
    ∃ r, open_from_bytes (serialize ⟨999, 42, 3⟩ (List.replicate 129 7)) =
        OpenResult.ok r ∧
      r.num_vals = 999 ∧ r.min_value = 42 ∧ r.max_value = 3 :=
  stats_passthrough_C10 ⟨999, 42, 3⟩ (List.replicate 129 7) (by decide) (by decide)
    (by decide) (by decide) (by decide)

/-- C5: on every buffer produced by `serialize`, the trailing 4 bytes read
back as exactly the footer region's byte length `L`, and deserializing the
slice `bytes[len-4-L .. len-4]` succeeds, reproducing the serialized
`num_vals`, `min_value`, `max_value` and ordered block-metadata sequence. -/
theorem footer_self_description_C5 (stats : FastFieldStats) (data : List Nat)
    (hnv : stats.num_vals < 2 ^ 64) (hmn : stats.min_value < 2 ^ 64)
    (hmx : stats.max_value < 2 ^ 64) (hv : ∀ v ∈ data, v < 2 ^ 64)
    (hlen : data.length < 2 ^ 32) :
    bytesToNat ((serialize stats data).drop ((serialize stats data).length - 4)) =
      (footerBody ⟨stats.num_vals, stats.min_value, stats.max_value,
        blockMetadatas data⟩).length ∧
    footerDeserialize (((serialize stats data).drop
        ((serialize stats data).length - 4 -
          (footerBody ⟨stats.num_vals, stats.min_value, stats.max_value,
            blockMetadatas data⟩).length)).take
        (footerBody ⟨stats.num_vals, stats.min_value, stats.max_value,
          blockMetadatas data⟩).length) =
      some ⟨stats.num_vals, stats.min_value, stats.max_value, blockMetadatas data⟩ := by
  have hmetas_len : (blockMetadatas data).length =
      (data.length + (BLOCK_SIZE - 1)) / BLOCK_SIZE := by
    rw [blockMetadatas_length, blocksOf_length]
  have hBlen : (footerBody ⟨stats.num_vals, stats.min_value, stats.max_value,
      blockMetadatas data⟩).length = 28 + 9 * (blockMetadatas data).length :=
    footerBody_length _
  have hmlt2 : 28 + 9 * (blockMetadatas data).length < 4294967296 := by
    rw [hmetas_len]
    unfold BLOCK_SIZE
    omega
  set B := footerBody ⟨stats.num_vals, stats.min_value, stats.max_value,
    blockMetadatas data⟩ with hB
  have hser : serialize stats data = (dataBytes data ++ B) ++ leBytes 4 B.length := by
    unfold serialize FORFooter.serializeBytes
    rw [List.append_assoc, hB]
  have hdrop4 : (serialize stats data).drop ((serialize stats data).length - 4) =
      leBytes 4 B.length := by
    rw [hser]
    have : ((dataBytes data ++ B) ++ leBytes 4 B.length).length - 4 =
        (dataBytes data ++ B).length := by
      simp only [List.length_append, leBytes_length]
      omega
    rw [this]
    exact List.drop_left _ _
  constructor
  · rw [hdrop4, bytesToNat_leBytes]
    apply Nat.mod_eq_of_lt
    rw [hBlen]
    rw [show (256 : Nat) ^ 4 = 4294967296 from by norm_num]
    omega
  · have hdropD : (serialize stats data).drop
        ((serialize stats data).length - 4 - B.length) = B ++ leBytes 4 B.length := by
      conv_lhs => rw [hser, List.append_assoc]
      have : (dataBytes data ++ (B ++ leBytes 4 B.length)).length - 4 - B.length =
          (dataBytes data).length := by
        simp only [List.length_append, leBytes_length]
        omega
      rw [this]
      exact List.drop_left _ _
    rw [hdropD, List.take_left' rfl]
    have h256 : (256 : Nat) ^ 8 = 2 ^ 64 := by norm_num
    have := footerDeserialize_body
      ⟨stats.num_vals, stats.min_value, stats.max_value, blockMetadatas data⟩ []
      (by simpa [h256] using hnv) (by simpa [h256] using hmn)
      (by simpa [h256] using hmx)
      (by show (blockMetadatas data).length < 256 ^ 4
          rw [show (256 : Nat) ^ 4 = 4294967296 from by norm_num]
          omega)
      (blockMetadatas_bounds data hv)
    rw [List.append_nil] at this
    exact this

set_option maxRecDepth 8000 in
theorem footer_self_description_C5_witness :
    bytesToNat ((serialize ⟨129, 1, 3⟩ [1, 3, 2]).drop
        ((serialize ⟨129, 1, 3⟩ [1, 3, 2]).length - 4)) =
      (footerBody ⟨129, 1, 3, blockMetadatas [1, 3, 2]⟩).length ∧
    footerDeserialize (((serialize ⟨129, 1, 3⟩ [1, 3, 2]).drop
        ((serialize ⟨129, 1, 3⟩ [1, 3, 2]).length - 4 -
          (footerBody ⟨129, 1, 3, blockMetadatas [1, 3, 2]⟩).length)).take
        (footerBody ⟨129, 1, 3, blockMetadatas [1, 3, 2]⟩).length) =
      some ⟨129, 1, 3, blockMetadatas [1, 3, 2]⟩ :=
  footer_self_description_C5 ⟨129, 1, 3⟩ [1, 3, 2] (by decide) (by decide) (by decide)
    (by decide) (by decide)

/-- C6: for every reader built by `open` over a serialized buffer, the `i`-th
`BlockReader`'s `start_offset` equals `Σ_{j<i} num_bits[j] · 128 / 8`, and —
because the encoder flushes each block to a byte boundary — `8 · start_offset`
is exactly the bit position where block `i`'s packed data begins in the data
region. -/
theorem offsets_C6 (stats : FastFieldStats) (data : List Nat)
    (hnv : stats.num_vals < 2 ^ 64) (hmn : stats.min_value < 2 ^ 64)
    (hmx : stats.max_value < 2 ^ 64) (hv : ∀ v ∈ data, v < 2 ^ 64)
    (hlen : data.length < 2 ^ 32) :
    ∃ r, open_from_bytes (serialize stats data) = OpenResult.ok r ∧
      r.block_readers.length = (blockMetadatas data).length ∧
      ∀ i, i < r.block_readers.length →
        (r.block_readers.getD i ⟨⟨0, 0⟩, 0⟩).start_offset =
          (((blockMetadatas data).take i).map
            (fun m => m.num_bits * BLOCK_SIZE / 8)).sum ∧
        8 * (r.block_readers.getD i ⟨⟨0, 0⟩, 0⟩).start_offset =
          prefixLen ((blocksOf data).map blockBits) i := by
  refine ⟨_, open_serialize stats data hnv hmn hmx hv hlen,
    buildBlockReaders_length _ _, ?_⟩
  intro i hi
  rw [buildBlockReaders_length] at hi
  have hiB : i < (blocksOf data).length := by
    rw [blockMetadatas_length] at hi
    exact hi
  have hgetD : (buildBlockReaders (blockMetadatas data) 0).getD i ⟨⟨0, 0⟩, 0⟩ =
      ⟨(blockMetadatas data).getD i ⟨0, 0⟩, 0 + offsetOf (blockMetadatas data) i⟩ := by
    rw [List.getD_eq_getElem?_getD, buildBlockReaders_getElem (blockMetadatas data) 0 i hi]
    rfl
  rw [hgetD]
  constructor
  · show 0 + offsetOf (blockMetadatas data) i = _
    rw [Nat.zero_add]
    rfl
  · show 8 * (0 + offsetOf (blockMetadatas data) i) = _
    rw [Nat.zero_add,
      prefixLen_blockBits_eq data i (Nat.le_of_lt hiB)
        (fun j hj => blocksOf_full data j i hiB hj)]

set_option maxRecDepth 8000 in
theorem offsets_C6_witness :
    ∃ r, open_from_bytes (serialize ⟨129, 0, 130⟩ (List.range 129)) =
        OpenResult.ok r ∧
      r.block_readers.length = (blockMetadatas (List.range 129)).length ∧
      ∀ i, i < r.block_readers.length →
        (r.block_readers.getD i ⟨⟨0, 0⟩, 0⟩).start_offset =
          (((blockMetadatas (List.range 129)).take i).map
            (fun m => m.num_bits * BLOCK_SIZE / 8)).sum ∧
        8 * (r.block_readers.getD i ⟨⟨0, 0⟩, 0⟩).start_offset =
          prefixLen ((blocksOf (List.range 129)).map blockBits) i :=
  offsets_C6 ⟨129, 0, 130⟩ (List.range 129) (by decide) (by decide) (by decide)
    (by decide) (by decide)

/-- C7: `serialize` produces one `BlockMetadata` per block in block order;
each entry stores the block minimum and
`num_bits = compute_num_bits(block_max − block_min)`; every value of the
block satisfies `v − block_min < 2^num_bits` and `num_bits` is minimal for
the block's range; an all-equal block gets `num_bits = 0` and its packed
entries occupy zero bits. -/
theorem block_metadata_C7 (data : List Nat) (hv : ∀ v ∈ data, v < 2 ^ 64) :
    (blockMetadatas data).length = (blocksOf data).length ∧
    ∀ i, i < (blocksOf data).length →
      ((blockMetadatas data).getD i ⟨0, 0⟩).min =
        blockMin ((blocksOf data).getD i []) ∧
      ((blockMetadatas data).getD i ⟨0, 0⟩).num_bits =
        compute_num_bits (blockMax ((blocksOf data).getD i []) -
          blockMin ((blocksOf data).getD i [])) ∧
      (∀ v ∈ (blocksOf data).getD i [],
        v - blockMin ((blocksOf data).getD i []) <
          2 ^ ((blockMetadatas data).getD i ⟨0, 0⟩).num_bits) ∧
      (∀ w', blockMax ((blocksOf data).getD i []) -
          blockMin ((blocksOf data).getD i []) < 2 ^ w' →
        ((blockMetadatas data).getD i ⟨0, 0⟩).num_bits ≤ w') ∧
      (blockMax ((blocksOf data).getD i []) = blockMin ((blocksOf data).getD i []) →
        ((blockMetadatas data).getD i ⟨0, 0⟩).num_bits = 0 ∧
        ((((blocksOf data).getD i []).map
          (fun v => natBits (v - blockMin ((blocksOf data).getD i []))
            (blockNumBits ((blocksOf data).getD i [])))).flatten).length = 0) := by
  refine ⟨blockMetadatas_length data, ?_⟩
  intro i hi
  rw [blockMetadatas_getD data i hi]
  have hbmem : (blocksOf data).getD i [] ∈ blocksOf data := by
    rw [blocksOf_getD data _ hi]
    unfold blocksOf
    apply List.mem_map_of_mem
    rw [List.mem_range, ← blocksOf_length]
    exact hi
  have hvblock : ∀ u ∈ (blocksOf data).getD i [], u < 2 ^ 64 :=
    fun u hu => hv u (blocksOf_mem_subset_data data _ hbmem u hu)
  refine ⟨rfl, rfl, ?_, ?_, ?_⟩
  · intro v hvv
    exact sub_blockMin_lt _ v hvv hvblock
  · intro w' hw'
    exact compute_num_bits_le _ _ hw'
  · intro heq
    have h0 : blockNumBits ((blocksOf data).getD i []) = 0 := by
      unfold blockNumBits
      rw [heq, Nat.sub_self]
      decide
    refine ⟨h0, ?_⟩
    rw [blockBits_unpadded_length, h0, Nat.mul_zero]

theorem block_metadata_C7_witness :
    (blockMetadatas [2, 2]).length = (blocksOf [2, 2]).length ∧
    ∀ i, i < (blocksOf [2, 2]).length →
      ((blockMetadatas [2, 2]).getD i ⟨0, 0⟩).min =
        blockMin ((blocksOf [2, 2]).getD i []) ∧
      ((blockMetadatas [2, 2]).getD i ⟨0, 0⟩).num_bits =
        compute_num_bits (blockMax ((blocksOf [2, 2]).getD i []) -
          blockMin ((blocksOf [2, 2]).getD i [])) ∧
      (∀ v ∈ (blocksOf [2, 2]).getD i [],
        v - blockMin ((blocksOf [2, 2]).getD i []) <
          2 ^ ((blockMetadatas [2, 2]).getD i ⟨0, 0⟩).num_bits) ∧
      (∀ w', blockMax ((blocksOf [2, 2]).getD i []) -
          blockMin ((blocksOf [2, 2]).getD i []) < 2 ^ w' →
        ((blockMetadatas [2, 2]).getD i ⟨0, 0⟩).num_bits ≤ w') ∧
      (blockMax ((blocksOf [2, 2]).getD i []) = blockMin ((blocksOf [2, 2]).getD i []) →
        ((blockMetadatas [2, 2]).getD i ⟨0, 0⟩).num_bits = 0 ∧
        ((((blocksOf [2, 2]).getD i []).map
          (fun v => natBits (v - blockMin ((blocksOf [2, 2]).getD i []))
            (blockNumBits ((blocksOf [2, 2]).getD i [])))).flatten).length = 0) :=
  block_metadata_C7 [2, 2] (by decide)

end FOR
